import Mathlib

/-!
# Bit-manipulation puzzles (`bits.c`)

A shallow embedding of the twelve functions of `bits.c`.  A C `int` is modelled by
its signed value, an `Int` in the range `-2^31 .. 2^31 - 1`.  Every C operator the
file uses is given as a function on such values, with two's-complement wrap-around
made explicit; the bitwise operators act on the 32-bit pattern of the value.
-/

namespace Bits

/-! ## The machine model -/

/-- Reduction of an integer to the signed 32-bit range (two's-complement wrap-around). -/
def wrap32 (z : Int) : Int := (z + 2147483648) % 4294967296 - 2147483648

/-- Unsigned value of the 32-bit pattern of `x`. -/
def toU32 (x : Int) : Nat := (x % 4294967296).toNat

/-- Signed value of the 32-bit pattern `p`. -/
def ofU32 (p : Nat) : Int := wrap32 (p : Int)

/-- C `~x`: every bit of the 32-bit pattern complemented. -/
def bnot (x : Int) : Int := ofU32 (4294967295 - toU32 x)

/-- C `x & y`. -/
def band (x y : Int) : Int := ofU32 (toU32 x &&& toU32 y)

/-- C `x | y`. -/
def bor (x y : Int) : Int := ofU32 (toU32 x ||| toU32 y)

/-- C `x ^ y`. -/
def bxor (x y : Int) : Int := ofU32 (toU32 x ^^^ toU32 y)

/-- C `x + y` on `int`, wrapping modulo `2^32`. -/
def add32 (x y : Int) : Int := wrap32 (x + y)

/-- C `x << s`: bits shifted out at the top are lost.  C defines the shift only for
counts `0 .. 31`; every use below keeps the count in that range. -/
def shl32 (x s : Int) : Int := wrap32 (x * 2 ^ s.toNat)

/-- C `x >> s` on `int`: the arithmetic (sign-extending) shift, which rounds the
quotient by `2^s` down.  Counts are `0 .. 31` as for `shl32`. -/
def sar32 (x s : Int) : Int := x >>> s.toNat

/-- C `!x`. -/
def lnot32 (x : Int) : Int := if x = 0 then 1 else 0

/-! ## The functions of `bits.c` -/

/-- Source `bitAnd`: `~(~x | ~y)`. -/
def bitAnd (x y : Int) : Int := bnot (bor (bnot x) (bnot y))

/-- Source `getByte`: `(x >> (n << 3)) & 0xff`. -/
def getByte (x n : Int) : Int := band (sar32 x (shl32 n 3)) 0xff

/-- The mask of `logicalShift`: `~((1 << 31) >> n << 1)`. -/
def logicalShiftMask (n : Int) : Int := bnot (shl32 (sar32 (shl32 1 31) n) 1)

/-- Source `logicalShift`: `(x >> n) & ~((1 << 31) >> n << 1)`. -/
def logicalShift (x n : Int) : Int := band (sar32 x n) (logicalShiftMask n)

/-- The local `masks` of `bitCount`: `1 | (1 << 8) | (1 << 16) | (1 << 24)`. -/
def bitCountMasks : Int := bor (bor (bor 1 (shl32 1 8)) (shl32 1 16)) (shl32 1 24)

/-- The local `sumMasks` of `bitCount`: eight shifted views of `x`, each masked with
`masks`, added up. -/
def bitCountSumMasks (x : Int) : Int :=
  let masks := bitCountMasks
  add32 (add32 (add32 (add32 (add32 (add32 (add32
    (band x masks)
    (band (sar32 x 1) masks))
    (band (sar32 x 2) masks))
    (band (sar32 x 3) masks))
    (band (sar32 x 4) masks))
    (band (sar32 x 5) masks))
    (band (sar32 x 6) masks))
    (band (sar32 x 7) masks)

/-- Source `bitCount`. -/
def bitCount (x : Int) : Int :=
  let maskEnd : Int := 0xFF
  let sumMasks := bitCountSumMasks x
  let sum := add32 (add32 (add32
    (band sumMasks maskEnd)
    (band (sar32 sumMasks 8) maskEnd))
    (band (sar32 sumMasks 16) maskEnd))
    (band (sar32 sumMasks 24) maskEnd)
  sum

/-- The local `sign` of `bang`: `x >> 31`. -/
def bangSign (x : Int) : Int := sar32 x 31

/-- The local `oppositeSign` of `bang`: `(~x + 1) >> 31`. -/
def bangOppositeSign (x : Int) : Int := sar32 (add32 (bnot x) 1) 31

/-- Source `bang`: `(~(sign | oppositeSign)) & 1`. -/
def bang (x : Int) : Int := band (bnot (bor (bangSign x) (bangOppositeSign x))) 1

/-- Source `tmin`: `1 << 31`. -/
def tmin : Int := shl32 1 31

/-- Source `fitsBits`: `!(((x << (33+~n)) >> (33+~n)) ^ x)`. -/
def fitsBits (x n : Int) : Int :=
  let doesItfit := lnot32 (bxor (sar32 (shl32 x (add32 33 (bnot n))) (add32 33 (bnot n))) x)
  doesItfit

/-- Source `divpwr2`. -/
def divpwr2 (x n : Int) : Int :=
  let negNumber := sar32 x 31
  let mask := add32 (shl32 (band negNumber 1) n) negNumber
  sar32 (add32 x mask) n

/-- Source `negate`: `~x + 1`. -/
def negate (x : Int) : Int := add32 (bnot x) 1

/-- Source `isPositive`: `(!(signX)) ^ (!x)` with `signX = x >> 31`. -/
def isPositive (x : Int) : Int :=
  let signX := sar32 x 31
  bxor (lnot32 signX) (lnot32 x)

/-- The local `equal` of `isLessOrEqual`: `!(x^y)`. -/
def leEqual (x y : Int) : Int := lnot32 (bxor x y)

/-- The local `sameSign` of `isLessOrEqual`. -/
def leSameSign (x y : Int) : Int :=
  let signX := sar32 x 31
  let signY := sar32 y 31
  let xyRel := sar32 (add32 (bnot y) x) 31
  band (lnot32 (bxor signX signY)) xyRel

/-- The local `diffSign` of `isLessOrEqual`: `signX & (!signY)`. -/
def leDiffSign (x y : Int) : Int :=
  let signX := sar32 x 31
  let signY := sar32 y 31
  band signX (lnot32 signY)

/-- Source `isLessOrEqual`: `equal | sameSign | diffSign`. -/
def isLessOrEqual (x y : Int) : Int :=
  bor (bor (leEqual x y) (leSameSign x y)) (leDiffSign x y)

/-- Source `ilog2`. -/
def ilog2 (x : Int) : Int :=
  let b01 : Int := 0xF0
  let b02 : Int := 0x0C
  let b03 : Int := 0x02
  let byteOne := shl32 0xFF 8
  let bytesTwoThree := add32 (shl32 0xFF 24) (shl32 0xFF 16)
  let count1 := shl32 (lnot32 (lnot32 (band x bytesTwoThree))) 4
  let x := sar32 x count1
  let count2 := shl32 (lnot32 (lnot32 (band x byteOne))) 3
  let x := sar32 x count2
  let count3 := shl32 (lnot32 (lnot32 (band x b01))) 2
  let x := sar32 x count3
  let count4 := shl32 (lnot32 (lnot32 (band x b02))) 1
  let x := sar32 x count4
  let count5 := lnot32 (lnot32 (band x b03))
  let finalCount := add32 (add32 (add32 (add32 count1 count2) count3) count4) count5
  finalCount

/-! ## Notions used to state and prove the properties -/

/-- Bit `i` of the two's-complement pattern of `x`, as 0 or 1. -/
def bitAt (x : Int) (i : Nat) : Int := x / 2 ^ i % 2

/-- The arithmetic reading of `ilog2`: five rounds, each testing one field of the working
value and dividing by the tested width when the field is nonzero. -/
def ilog2N (x : Int) : Nat :=
  let c1 := if x / 65536 % 65536 = 0 then 0 else 16
  let x1 := x / 2 ^ c1
  let c2 := if x1 / 256 % 256 = 0 then 0 else 8
  let x2 := x1 / 2 ^ c2
  let c3 := if x2 / 16 % 16 = 0 then 0 else 4
  let x3 := x2 / 2 ^ c3
  let c4 := if x3 / 4 % 4 = 0 then 0 else 2
  let x4 := x3 / 2 ^ c4
  let c5 := if x4 / 2 % 2 = 0 then 0 else 1
  c1 + c2 + c3 + c4 + c5

/-- How many of three flags are nonzero. -/
def nonzeroCount (a b c : Int) : Nat :=
  (if a = 0 then 0 else 1) + (if b = 0 then 0 else 1) + (if c = 0 then 0 else 1)

/-- Of two sign words, exactly one is all-ones (`-1`) and the other is zero. -/
def exactlyOneAllOnes (s o : Int) : Prop := (s = -1 ∧ o = 0) ∨ (s = 0 ∧ o = -1)

/-! ## Arithmetic reading of the machine operations -/

theorem wrap32_eq_self (z : Int) (h1 : -2147483648 ≤ z) (h2 : z ≤ 2147483647) :
    wrap32 z = z := by
  unfold wrap32; omega

theorem toU32_cast (x : Int) : ((toU32 x : Nat) : Int) = x % 4294967296 := by
  unfold toU32; omega

theorem toU32_lt (x : Int) : toU32 x < 4294967296 := by
  unfold toU32; omega

theorem bnot_eq (x : Int) (h1 : -2147483648 ≤ x) (h2 : x ≤ 2147483647) :
    bnot x = -x - 1 := by
  unfold bnot ofU32 wrap32 toU32; omega

theorem sar32_eq (x : Int) (s : Nat) : sar32 x s = x / 2 ^ s := by
  unfold sar32
  rw [Int.toNat_ofNat, Int.shiftRight_eq_div_pow]
  norm_cast

theorem nat_and_step (p m : Nat) : p &&& m = 2 * (p / 2 &&& m / 2) + (p % 2) * (m % 2) := by
  apply Nat.eq_of_testBit_eq
  intro i
  cases i with
  | zero =>
    simp only [Nat.testBit_zero, Nat.and_mod_two_eq_one]
    rcases Nat.mod_two_eq_zero_or_one p with hp | hp <;>
      rcases Nat.mod_two_eq_zero_or_one m with hm | hm <;>
      simp [hp, hm, Nat.add_mod, Nat.mul_mod]
  | succ i =>
    have h : (2 * (p / 2 &&& m / 2) + (p % 2) * (m % 2)) / 2 = (p / 2 &&& m / 2) := by
      have : (p % 2) * (m % 2) < 2 := by
        rcases Nat.mod_two_eq_zero_or_one p with hp | hp <;>
          rcases Nat.mod_two_eq_zero_or_one m with hm | hm <;> simp [hp, hm]
      omega
    rw [Nat.testBit_and, Nat.testBit_succ p, Nat.testBit_succ m, Nat.testBit_succ, h,
      Nat.testBit_and]

/-- A bitwise and splits at any bit position into its low and its high part. -/
theorem nat_and_split (a : Nat) : ∀ p m : Nat,
    p &&& m = (p % 2 ^ a &&& m % 2 ^ a) + 2 ^ a * (p / 2 ^ a &&& m / 2 ^ a) := by
  induction a with
  | zero => intro p m; simp [Nat.mod_one]
  | succ a ih =>
    intro p m
    have f1 : ∀ q : Nat, q % 2 ^ (a + 1) / 2 = q / 2 % 2 ^ a := by
      intro q
      rw [pow_succ, Nat.mul_comm]
      exact Nat.mod_mul_right_div_self q 2 (2 ^ a)
    have f2 : ∀ q : Nat, q % 2 ^ (a + 1) % 2 = q % 2 := by
      intro q
      exact Nat.mod_mod_of_dvd q (dvd_pow_self 2 (Nat.succ_ne_zero a))
    have f3 : ∀ q : Nat, q / 2 / 2 ^ a = q / 2 ^ (a + 1) := by
      intro q
      rw [Nat.div_div_eq_div_mul, pow_succ, Nat.mul_comm]
    rw [nat_and_step p m, ih (p / 2) (m / 2),
      nat_and_step (p % 2 ^ (a + 1)) (m % 2 ^ (a + 1)), f1, f1, f2, f2, f3, f3]
    ring

theorem nat_and_bytes (p : Nat) :
    p &&& 16843009 =
      p % 2 + 256 * (p / 256 % 2) + 65536 * (p / 65536 % 2) + 16777216 * (p / 16777216 % 2) := by
  have h1 := nat_and_split 8 p 16843009
  have h2 := nat_and_split 8 (p / 256) 65793
  have h3 := nat_and_split 8 (p / 256 / 256) 257
  norm_num [Nat.and_one_is_mod] at h1 h2 h3
  rw [h1, h2, h3]
  omega

theorem toU32_of_nonneg (m : Int) (h1 : 0 ≤ m) (h2 : m < 4294967296) :
    toU32 m = m.toNat := by
  unfold toU32; rw [Int.emod_eq_of_lt h1 h2]

theorem ofU32_toU32 (x : Int) (h1 : -2147483648 ≤ x) (h2 : x ≤ 2147483647) :
    ofU32 (toU32 x) = x := by
  unfold ofU32 wrap32 toU32; omega

theorem toU32_inj (x y : Int) (hx1 : -2147483648 ≤ x) (hx2 : x ≤ 2147483647)
    (hy1 : -2147483648 ≤ y) (hy2 : y ≤ 2147483647) (h : toU32 x = toU32 y) : x = y := by
  unfold toU32 at h; omega

theorem two_pow_le_of_le_31 (k : Nat) (hk : k ≤ 31) : (2 : Int) ^ k ≤ 2147483648 := by
  have : (2 : Int) ^ k ≤ 2 ^ 31 := pow_le_pow_right₀ (by norm_num) hk
  simpa using this

/-- Masking with the low `k` bits is reduction modulo `2^k`. -/
theorem band_low_mask (y : Int) (k : Nat) (hk : k ≤ 31) :
    band y (2 ^ k - 1) = y % 2 ^ k := by
  have hp : (0 : Int) < 2 ^ k := by positivity
  have hle := two_pow_le_of_le_31 k hk
  have hm : toU32 (2 ^ k - 1) = 2 ^ k - 1 := by
    rw [toU32_of_nonneg _ (by omega) (by omega)]
    have h1 : ((2 : Int) ^ k - 1) = (((2 ^ k - 1 : Nat)) : Int) := by
      have : 1 ≤ 2 ^ k := Nat.one_le_two_pow
      push_cast [Nat.cast_sub this]; ring
    rw [h1, Int.toNat_ofNat]
  unfold band
  rw [hm, Nat.and_pow_two_sub_one_eq_mod]
  unfold ofU32
  have hc : (((toU32 y % 2 ^ k : Nat)) : Int) = y % 2 ^ k := by
    push_cast [toU32_cast]
    have hd : ((2 : Int) ^ k) ∣ 4294967296 := by
      have : (2 : Int) ^ k ∣ 2 ^ 32 := pow_dvd_pow 2 (by omega)
      simpa using this
    exact Int.emod_emod_of_dvd y hd
  rw [hc]
  have h0 : 0 ≤ y % 2 ^ k := Int.emod_nonneg _ (by omega)
  have h1 : y % 2 ^ k < 2 ^ k := Int.emod_lt_of_pos _ hp
  exact wrap32_eq_self _ (by omega) (by omega)

theorem band_255 (y : Int) : band y 255 = y % 256 := by
  have := band_low_mask y 8 (by norm_num)
  norm_num at this; exact this

theorem band_one (y : Int) : band y 1 = y % 2 := by
  have := band_low_mask y 1 (by norm_num)
  norm_num at this; exact this

/-- Masking with the all-ones word changes nothing. -/
theorem band_neg_one (y : Int) (h1 : -2147483648 ≤ y) (h2 : y ≤ 2147483647) :
    band y (-1) = y := by
  unfold band
  have hm : toU32 (-1) = 2 ^ 32 - 1 := by decide
  rw [hm, Nat.and_pow_two_sub_one_eq_mod, Nat.mod_eq_of_lt (by simpa using toU32_lt y)]
  exact ofU32_toU32 y h1 h2

/-- Exclusive or of two words is zero exactly when the words are equal. -/
theorem bxor_eq_zero_iff (x y : Int) (hx1 : -2147483648 ≤ x) (hx2 : x ≤ 2147483647)
    (hy1 : -2147483648 ≤ y) (hy2 : y ≤ 2147483647) : bxor x y = 0 ↔ x = y := by
  constructor
  · intro h
    have hlt : toU32 x ^^^ toU32 y < 2 ^ 32 :=
      Nat.xor_lt_two_pow (by simpa using toU32_lt x) (by simpa using toU32_lt y)
    have hz : toU32 x ^^^ toU32 y = 0 := by
      unfold bxor ofU32 wrap32 at h
      norm_num at hlt
      omega
    exact toU32_inj x y hx1 hx2 hy1 hy2 (Nat.xor_eq_zero.mp hz)
  · rintro rfl
    unfold bxor
    rw [Nat.xor_self]; decide

theorem sar32_lit (x k : Int) (s : Nat) (hk : k = (s : Int)) : sar32 x k = x / 2 ^ s := by
  subst hk; exact sar32_eq x s

/-- The arithmetic shift by 31 broadcasts the sign bit. -/
theorem sar32_31 (x : Int) (h1 : -2147483648 ≤ x) (h2 : x ≤ 2147483647) :
    sar32 x 31 = if x < 0 then -1 else 0 := by
  have h := sar32_eq x 31
  norm_num at h
  rw [h]
  split <;> omega

theorem wrap32_range (z : Int) : -2147483648 ≤ wrap32 z ∧ wrap32 z ≤ 2147483647 := by
  unfold wrap32; omega

/-! ## isLessOrEqual -/

/-- C1: for every pair of 32-bit signed integers `x`, `y` (opposite signs included, where
`y - x` overflows), `isLessOrEqual x y` is 1 when `x ≤ y` and 0 otherwise. -/
theorem isLessOrEqual_correct (x y : Int)
    (hx1 : -2147483648 ≤ x) (hx2 : x ≤ 2147483647)
    (hy1 : -2147483648 ≤ y) (hy2 : y ≤ 2147483647) :
    isLessOrEqual x y = if x ≤ y then 1 else 0 := by
  have hxy : add32 (bnot y) x = wrap32 (x - y - 1) := by
    rw [bnot_eq y hy1 hy2]; unfold add32; congr 1; ring
  have hw := wrap32_range (x - y - 1)
  have hrel : sar32 (add32 (bnot y) x) 31 = if wrap32 (x - y - 1) < 0 then -1 else 0 := by
    rw [hxy]; exact sar32_31 _ hw.1 hw.2
  have heq : lnot32 (bxor x y) = if x = y then 1 else 0 := by
    unfold lnot32; simp only [bxor_eq_zero_iff x y hx1 hx2 hy1 hy2]
  unfold isLessOrEqual leEqual leSameSign leDiffSign
  simp only [hrel, heq, sar32_31 x hx1 hx2, sar32_31 y hy1 hy2]
  by_cases hxn : x < 0 <;> by_cases hyn : y < 0 <;> by_cases he : x = y <;>
    by_cases hr : wrap32 (x - y - 1) < 0 <;> by_cases hle : x ≤ y <;>
    simp only [hxn, hyn, hr, hle, if_true, if_false] <;>
    simp only [he, if_true, if_false] <;>
    first
      | decide
      | (exfalso; unfold wrap32 at hr; omega)

theorem isLessOrEqual_correct_witness :
    isLessOrEqual 2147483647 (-2147483648) = (if (2147483647 : Int) ≤ -2147483648 then 1 else 0) :=
  isLessOrEqual_correct 2147483647 (-2147483648) (by decide) (by decide) (by decide) (by decide)

/-! ## bang, isPositive, negate -/

/-- C7: for every 32-bit integer `x`, `bang x` is 1 when `x = 0` and 0 when `x` is nonzero,
the minimum integer (which is its own negation) included. -/
theorem bang_correct (x : Int) (h1 : -2147483648 ≤ x) (h2 : x ≤ 2147483647) :
    bang x = if x = 0 then 1 else 0 := by
  have hneg : add32 (bnot x) 1 = wrap32 (-x) := by
    rw [bnot_eq x h1 h2]; unfold add32; congr 1; ring
  have hw := wrap32_range (-x)
  unfold bang bangSign bangOppositeSign
  rw [hneg, sar32_31 x h1 h2, sar32_31 _ hw.1 hw.2]
  by_cases hxn : x < 0 <;> by_cases hr : wrap32 (-x) < 0 <;> by_cases hz : x = 0 <;>
    simp only [hxn, hr, if_true, if_false] <;>
    simp only [hz, if_true, if_false] <;>
    first
      | decide
      | (exfalso; unfold wrap32 at hr; omega)

theorem bang_correct_witness :
    bang (-2147483648) = (if (-2147483648 : Int) = 0 then 1 else 0) :=
  bang_correct (-2147483648) (by decide) (by decide)

/-- C8: for every 32-bit signed integer `x`, `isPositive x` is 1 when `x > 0` and 0 when
`x ≤ 0`. -/
theorem isPositive_correct (x : Int) (h1 : -2147483648 ≤ x) (h2 : x ≤ 2147483647) :
    isPositive x = if 0 < x then 1 else 0 := by
  unfold isPositive
  simp only [sar32_31 x h1 h2]
  have hl : lnot32 x = if x = 0 then 1 else 0 := rfl
  rw [hl]
  by_cases hxn : x < 0 <;> by_cases hz : x = 0 <;> by_cases hp : 0 < x <;>
    simp only [hxn, hz, hp, if_true, if_false] <;>
    first
      | decide
      | (exfalso; omega)

theorem isPositive_correct_witness :
    isPositive (-2147483648) = (if (0 : Int) < -2147483648 then 1 else 0) :=
  isPositive_correct (-2147483648) (by decide) (by decide)

/-- C10: for every 32-bit signed integer `x` other than the minimum integer, `negate x` is
the mathematical `-x`; and `negate` of the minimum integer is the minimum integer. -/
theorem negate_correct (x : Int) (h1 : -2147483648 ≤ x) (h2 : x ≤ 2147483647) :
    (x ≠ -2147483648 → negate x = -x) ∧ negate (-2147483648) = -2147483648 := by
  refine ⟨fun hne => ?_, by decide⟩
  unfold negate add32
  rw [bnot_eq x h1 h2]
  unfold wrap32
  omega

theorem negate_correct_witness :
    negate 2147483647 = -2147483647 ∧ negate (-2147483648) = -2147483648 :=
  ⟨(negate_correct 2147483647 (by decide) (by decide)).1 (by decide),
    (negate_correct 2147483647 (by decide) (by decide)).2⟩

/-! ## getByte -/

/-- C9: for every 32-bit integer `x` and `0 ≤ n ≤ 3`, `getByte x n` is byte `n` of the
pattern of `x`, zero-extended: (unsigned value of `x` / `256^n`) mod 256, hence in
`0 .. 255` also for negative `x`. -/
theorem getByte_correct (x n : Int) (hn1 : 0 ≤ n) (hn2 : n ≤ 3) :
    getByte x n = (x % 4294967296) / 256 ^ n.toNat % 256 ∧
      0 ≤ getByte x n ∧ getByte x n ≤ 255 := by
  have hn : n = 0 ∨ n = 1 ∨ n = 2 ∨ n = 3 := by omega
  unfold getByte
  have hm : (0xff : Int) = 255 := rfl
  rw [hm, band_255]
  rcases hn with rfl | rfl | rfl | rfl
  · have hs : shl32 0 3 = 0 := by decide
    have ht : (0 : Int).toNat = 0 := rfl
    rw [hs, sar32_lit x 0 0 rfl, ht]
    norm_num
    omega
  · have hs : shl32 1 3 = 8 := by decide
    have ht : (1 : Int).toNat = 1 := rfl
    rw [hs, sar32_lit x 8 8 rfl, ht]
    norm_num
    omega
  · have hs : shl32 2 3 = 16 := by decide
    have ht : (2 : Int).toNat = 2 := rfl
    rw [hs, sar32_lit x 16 16 rfl, ht]
    norm_num
    omega
  · have hs : shl32 3 3 = 24 := by decide
    have ht : (3 : Int).toNat = 3 := rfl
    rw [hs, sar32_lit x 24 24 rfl, ht]
    norm_num
    omega

theorem getByte_correct_witness :
    getByte (-2) 3 = ((-2 : Int) % 4294967296) / 256 ^ (3 : Int).toNat % 256 ∧
      0 ≤ getByte (-2) 3 ∧ getByte (-2) 3 ≤ 255 :=
  getByte_correct (-2) 3 (by decide) (by decide)

/-! ## divpwr2 -/

theorem two_pow_toNat_bounds (n : Int) (b : Nat) (hn : n ≤ b) :
    (1 : Int) ≤ 2 ^ n.toNat ∧ (2 : Int) ^ n.toNat ≤ 2 ^ b := by
  constructor
  · exact one_le_pow₀ (by norm_num)
  · exact pow_le_pow_right₀ (by norm_num) (by omega)

/-- The value of `divpwr2` as a truncating quotient. -/
theorem divpwr2_eq_tdiv (x m : Int) (h1 : -2147483648 ≤ x) (h2 : x ≤ 2147483647)
    (hm1 : 0 ≤ m) (hm2 : m ≤ 30) : divpwr2 x m = Int.tdiv x (2 ^ m.toNat) := by
  have hP := two_pow_toNat_bounds m 30 (by simpa using hm2)
  norm_num at hP
  obtain ⟨hP1, hP2⟩ := hP
  have hcast : m = ((m.toNat : Nat) : Int) := by omega
  unfold divpwr2
  simp only [sar32_31 x h1 h2, band_one]
  by_cases hx : x < 0
  · simp only [hx, if_true]
    have hs : shl32 (-1 % 2) m = 2 ^ m.toNat := by
      unfold shl32 wrap32; omega
    have hmask : add32 (2 ^ m.toNat) (-1) = 2 ^ m.toNat - 1 := by
      unfold add32 wrap32; omega
    have hsum : add32 x (2 ^ m.toNat - 1) = x + (2 ^ m.toNat - 1) := by
      unfold add32 wrap32; omega
    rw [hs, hmask, hsum, sar32_lit _ m m.toNat hcast]
    have hneg : Int.tdiv x (2 ^ m.toNat) = -((-x) / 2 ^ m.toNat) := by
      have : x = -(-x) := by ring
      rw [this, Int.neg_tdiv, Int.tdiv_eq_ediv (by omega) (by omega)]
      simp
    rw [hneg]
    have hpos : (0 : Int) < 2 ^ m.toNat := by omega
    have hdm := Int.emod_add_ediv (-x) (2 ^ m.toNat)
    have hr0 := Int.emod_nonneg (-x) (ne_of_gt hpos)
    have hr1 := Int.emod_lt_of_pos (-x) hpos
    refine ((Int.ediv_emod_unique hpos).mpr
      (⟨?_, ?_, ?_⟩ : (2 ^ m.toNat - 1 - (-x) % 2 ^ m.toNat) +
          2 ^ m.toNat * (-((-x) / 2 ^ m.toNat)) = x + (2 ^ m.toNat - 1) ∧
        0 ≤ (2 ^ m.toNat - 1 - (-x) % 2 ^ m.toNat) ∧
        (2 ^ m.toNat - 1 - (-x) % 2 ^ m.toNat) < 2 ^ m.toNat)).1
    · linarith
    · omega
    · omega
  · simp only [hx, if_false]
    have hs : shl32 (0 % 2) m = 0 := by
      unfold shl32 wrap32; simp
    have hsum : add32 x (add32 0 0) = x := by
      unfold add32 wrap32; omega
    rw [hs, hsum, sar32_lit _ m m.toNat hcast]
    exact (Int.tdiv_eq_ediv (by omega) (by omega)).symm

/-- C3: for every 32-bit signed integer `x` and `0 ≤ n ≤ 30`, `divpwr2 x n` is the quotient
of `x` by `2^n` rounded toward zero, for negative `x` as well; and `divpwr2 x 0 = x`. -/
theorem divpwr2_correct (x n : Int) (h1 : -2147483648 ≤ x) (h2 : x ≤ 2147483647)
    (hn1 : 0 ≤ n) (hn2 : n ≤ 30) :
    divpwr2 x n = Int.tdiv x (2 ^ n.toNat) ∧ divpwr2 x 0 = x := by
  have key : ∀ m : Int, 0 ≤ m → m ≤ 30 → divpwr2 x m = Int.tdiv x (2 ^ m.toNat) :=
    fun m hm1 hm2 => divpwr2_eq_tdiv x m h1 h2 hm1 hm2
  refine ⟨key n hn1 hn2, ?_⟩
  have h0 := key 0 (by decide) (by decide)
  rw [h0]
  simp

theorem divpwr2_correct_witness :
    divpwr2 (-33) 4 = Int.tdiv (-33) (2 ^ (4 : Int).toNat) ∧ divpwr2 (-33) 0 = -33 :=
  divpwr2_correct (-33) 4 (by decide) (by decide) (by decide) (by decide)

/-! ## fitsBits -/

/-- Dividing a word by a positive number keeps it a word. -/
theorem ediv_range (w P : Int) (hP : 1 ≤ P) (hw1 : -2147483648 ≤ w) (hw2 : w ≤ 2147483647) :
    -2147483648 ≤ w / P ∧ w / P ≤ 2147483647 := by
  have hpos : 0 < P := by omega
  constructor
  · rw [Int.le_ediv_iff_mul_le hpos]
    nlinarith
  · have : w / P < 2147483648 := by
      rw [Int.ediv_lt_iff_lt_mul hpos]
      nlinarith
    omega

theorem lnot32_bxor (a b : Int) (ha1 : -2147483648 ≤ a) (ha2 : a ≤ 2147483647)
    (hb1 : -2147483648 ≤ b) (hb2 : b ≤ 2147483647) :
    lnot32 (bxor a b) = if a = b then 1 else 0 := by
  unfold lnot32; simp only [bxor_eq_zero_iff a b ha1 ha2 hb1 hb2]

/-- The shift count `33 + ~n` of `fitsBits` is `32 - n`. -/
theorem fitsBits_count (n : Int) (hn1 : 1 ≤ n) (hn2 : n ≤ 32) :
    add32 33 (bnot n) = 32 - n := by
  rw [bnot_eq n (by omega) (by omega)]
  unfold add32 wrap32; omega

theorem fitsBits_eq (x n : Int) (h1 : -2147483648 ≤ x) (h2 : x ≤ 2147483647)
    (hn1 : 1 ≤ n) (hn2 : n ≤ 32) :
    fitsBits x n =
      if wrap32 (x * 2 ^ (32 - n).toNat) / 2 ^ (32 - n).toNat = x then 1 else 0 := by
  unfold fitsBits
  simp only [fitsBits_count n hn1 hn2]
  have hcast : 32 - n = (((32 - n).toNat : Nat) : Int) := by omega
  rw [sar32_lit _ (32 - n) (32 - n).toNat hcast]
  unfold shl32
  have hw := wrap32_range (x * 2 ^ (32 - n).toNat)
  have hP := two_pow_toNat_bounds (32 - n) 31 (by omega)
  norm_num at hP
  have hq := ediv_range _ _ hP.1 hw.1 hw.2
  exact lnot32_bxor _ _ hq.1 hq.2 h1 h2

/-- C4: for every 32-bit signed integer `x` and `1 ≤ n ≤ 32`, `fitsBits x n` is 1 when
`-2^(n-1) ≤ x ≤ 2^(n-1) - 1` and 0 otherwise; in particular `fitsBits x 32 = 1`. -/
theorem fitsBits_correct (x n : Int) (h1 : -2147483648 ≤ x) (h2 : x ≤ 2147483647)
    (hn1 : 1 ≤ n) (hn2 : n ≤ 32) :
    fitsBits x n =
        (if -2 ^ (n - 1).toNat ≤ x ∧ x ≤ 2 ^ (n - 1).toNat - 1 then 1 else 0) ∧
      fitsBits x 32 = 1 := by
  have key : ∀ m : Int, 1 ≤ m → m ≤ 32 → fitsBits x m =
      (if -2 ^ (m - 1).toNat ≤ x ∧ x ≤ 2 ^ (m - 1).toNat - 1 then 1 else 0) := by
    intro m hm1 hm2
    rw [fitsBits_eq x m h1 h2 hm1 hm2]
    unfold wrap32
    obtain ⟨k, rfl⟩ := Int.eq_ofNat_of_zero_le (by omega : 0 ≤ m)
    have e1 : (32 - (k : Int)).toNat = 32 - k := by omega
    have e2 : ((k : Int) - 1).toNat = k - 1 := by omega
    have hk1 : 1 ≤ k := by omega
    have hk2 : k ≤ 32 := by omega
    rw [e1, e2]
    interval_cases k <;> norm_num <;> split_ifs <;> omega
  refine ⟨key n hn1 hn2, ?_⟩
  rw [key 32 (by decide) (by decide)]
  have e : ((32 : Int) - 1).toNat = 31 := rfl
  rw [e]
  norm_num
  omega

theorem fitsBits_correct_witness :
    fitsBits (-4) 3 =
        (if -2 ^ ((3 : Int) - 1).toNat ≤ (-4 : Int) ∧ (-4 : Int) ≤ 2 ^ ((3 : Int) - 1).toNat - 1
          then 1 else 0) ∧
      fitsBits (-4) 32 = 1 :=
  fitsBits_correct (-4) 3 (by decide) (by decide) (by decide) (by decide)

/-! ## logicalShift -/

/-- For `1 ≤ n ≤ 31` the mask of `logicalShift` has exactly its low `32 - n` bits set. -/
theorem logicalShiftMask_eq (k : Nat) (hk1 : 1 ≤ k) (hk2 : k ≤ 31) :
    logicalShiftMask (k : Int) = 2 ^ (32 - k) - 1 := by
  interval_cases k <;> decide

theorem logicalShiftMask_zero : logicalShiftMask 0 = -1 := by decide

/-- C6: for every 32-bit integer `x` and `0 ≤ n ≤ 31`, the pattern of `logicalShift x n` is
the pattern of `x` shifted right by `n` with zero fill: its unsigned value is the unsigned
value of `x` divided by `2^n`, rounded down; in particular `logicalShift x 0 = x`. -/
theorem logicalShift_correct (x n : Int) (h1 : -2147483648 ≤ x) (h2 : x ≤ 2147483647)
    (hn1 : 0 ≤ n) (hn2 : n ≤ 31) :
    toU32 (logicalShift x n) = toU32 x / 2 ^ n.toNat ∧
      (-2147483648 ≤ logicalShift x n ∧ logicalShift x n ≤ 2147483647) ∧
      logicalShift x 0 = x := by
  have h0 : logicalShift x 0 = x := by
    unfold logicalShift
    rw [logicalShiftMask_zero, sar32_lit x 0 0 rfl]
    simp only [pow_zero, Int.ediv_one]
    exact band_neg_one x h1 h2
  refine ⟨?_, wrap32_range _, h0⟩
  obtain ⟨k, rfl⟩ := Int.eq_ofNat_of_zero_le hn1
  rw [Int.toNat_ofNat]
  by_cases hk : k = 0
  · subst hk
    simp only [Nat.cast_zero] at *
    rw [h0]; simp
  · have hk1 : 1 ≤ k := by omega
    have hk2 : k ≤ 31 := by omega
    unfold logicalShift
    rw [logicalShiftMask_eq k hk1 hk2, sar32_lit x k k rfl, band_low_mask _ _ (by omega)]
    apply Int.ofNat_inj.mp
    show ((toU32 (x / 2 ^ k % 2 ^ (32 - k)) : Nat) : Int) = ((toU32 x / 2 ^ k : Nat) : Int)
    rw [toU32_cast]
    push_cast [toU32_cast]
    interval_cases k <;> norm_num <;> omega

theorem logicalShift_correct_witness :
    toU32 (logicalShift (-2023406815) 4) = toU32 (-2023406815) / 2 ^ (4 : Int).toNat ∧
      (-2147483648 ≤ logicalShift (-2023406815) 4 ∧
        logicalShift (-2023406815) 4 ≤ 2147483647) ∧
      logicalShift (-2023406815) 0 = -2023406815 :=
  logicalShift_correct (-2023406815) 4 (by decide) (by decide) (by decide) (by decide)

/-! ## bitCount -/

theorem bitAt_range (x : Int) (i : Nat) : 0 ≤ bitAt x i ∧ bitAt x i ≤ 1 := by
  unfold bitAt; omega

theorem bitCountMasks_eq : bitCountMasks = 16843009 := by decide

theorem band_masks (y : Int) :
    band y 16843009 =
      y % 2 + 256 * (y / 256 % 2) + 65536 * (y / 65536 % 2) + 16777216 * (y / 16777216 % 2) := by
  unfold band
  have hm : toU32 16843009 = 16843009 := by decide
  rw [hm, nat_and_bytes]
  unfold ofU32
  push_cast [toU32_cast]
  have f0 : y % 4294967296 % 2 = y % 2 := by omega
  have f1 : y % 4294967296 / 256 % 2 = y / 256 % 2 := by omega
  have f2 : y % 4294967296 / 65536 % 2 = y / 65536 % 2 := by omega
  have f3 : y % 4294967296 / 16777216 % 2 = y / 16777216 % 2 := by omega
  rw [f0, f1, f2, f3]
  apply wrap32_eq_self <;> omega

theorem int_div_div (x a b : Int) (ha : 0 < a) (hb : 0 < b) : x / a / b = x / (a * b) := by
  have hab : 0 < a * b := Int.mul_pos ha hb
  have key : ∀ z : Int, z ≤ x / a / b ↔ z ≤ x / (a * b) := by
    intro z
    rw [Int.le_ediv_iff_mul_le hb, Int.le_ediv_iff_mul_le ha, Int.le_ediv_iff_mul_le hab,
      mul_assoc, mul_comm b a]
  exact le_antisymm ((key _).mp le_rfl) ((key _).mpr le_rfl)

/-- One masked view of `bitCount`: bits `k`, `k+8`, `k+16`, `k+24` of `x`, one per lane. -/
theorem band_sar_masks (x : Int) (k : Nat) :
    band (sar32 x k) 16843009 =
      bitAt x k + 256 * bitAt x (k + 8) + 65536 * bitAt x (k + 16) +
        16777216 * bitAt x (k + 24) := by
  have hp : (0 : Int) < 2 ^ k := by positivity
  rw [sar32_eq, band_masks]
  unfold bitAt
  rw [int_div_div _ _ 256 hp (by norm_num), int_div_div _ _ 65536 hp (by norm_num),
    int_div_div _ _ 16777216 hp (by norm_num), pow_add, pow_add, pow_add]
  norm_num

theorem add32_chain8 (t0 t1 t2 t3 t4 t5 t6 t7 : Int)
    (h0 : 0 ≤ t0 ∧ t0 ≤ 16843009) (h1 : 0 ≤ t1 ∧ t1 ≤ 16843009)
    (h2 : 0 ≤ t2 ∧ t2 ≤ 16843009) (h3 : 0 ≤ t3 ∧ t3 ≤ 16843009)
    (h4 : 0 ≤ t4 ∧ t4 ≤ 16843009) (h5 : 0 ≤ t5 ∧ t5 ≤ 16843009)
    (h6 : 0 ≤ t6 ∧ t6 ≤ 16843009) (h7 : 0 ≤ t7 ∧ t7 ≤ 16843009) :
    add32 (add32 (add32 (add32 (add32 (add32 (add32 t0 t1) t2) t3) t4) t5) t6) t7 =
      t0 + t1 + t2 + t3 + t4 + t5 + t6 + t7 := by
  have a1 : add32 t0 t1 = t0 + t1 := wrap32_eq_self _ (by omega) (by omega)
  have a2 : add32 (t0 + t1) t2 = t0 + t1 + t2 := wrap32_eq_self _ (by omega) (by omega)
  have a3 : add32 (t0 + t1 + t2) t3 = t0 + t1 + t2 + t3 :=
    wrap32_eq_self _ (by omega) (by omega)
  have a4 : add32 (t0 + t1 + t2 + t3) t4 = t0 + t1 + t2 + t3 + t4 :=
    wrap32_eq_self _ (by omega) (by omega)
  have a5 : add32 (t0 + t1 + t2 + t3 + t4) t5 = t0 + t1 + t2 + t3 + t4 + t5 :=
    wrap32_eq_self _ (by omega) (by omega)
  have a6 : add32 (t0 + t1 + t2 + t3 + t4 + t5) t6 = t0 + t1 + t2 + t3 + t4 + t5 + t6 :=
    wrap32_eq_self _ (by omega) (by omega)
  have a7 : add32 (t0 + t1 + t2 + t3 + t4 + t5 + t6) t7 =
      t0 + t1 + t2 + t3 + t4 + t5 + t6 + t7 := wrap32_eq_self _ (by omega) (by omega)
  rw [a1, a2, a3, a4, a5, a6, a7]

/-- The lanes of `sumMasks`: lane `j` holds the number of set bits of byte `j`. -/
theorem bitCountSumMasks_eq (x : Int) :
    bitCountSumMasks x =
      (bitAt x 0 + bitAt x 1 + bitAt x 2 + bitAt x 3 +
        bitAt x 4 + bitAt x 5 + bitAt x 6 + bitAt x 7) +
      256 * (bitAt x 8 + bitAt x 9 + bitAt x 10 + bitAt x 11 +
        bitAt x 12 + bitAt x 13 + bitAt x 14 + bitAt x 15) +
      65536 * (bitAt x 16 + bitAt x 17 + bitAt x 18 + bitAt x 19 +
        bitAt x 20 + bitAt x 21 + bitAt x 22 + bitAt x 23) +
      16777216 * (bitAt x 24 + bitAt x 25 + bitAt x 26 + bitAt x 27 +
        bitAt x 28 + bitAt x 29 + bitAt x 30 + bitAt x 31) := by
  have h0 : band x 16843009 = band (sar32 x 0) 16843009 := by
    rw [sar32_lit x 0 0 rfl]; simp
  have e0 := band_sar_masks x 0
  have e1 := band_sar_masks x 1
  have e2 := band_sar_masks x 2
  have e3 := band_sar_masks x 3
  have e4 := band_sar_masks x 4
  have e5 := band_sar_masks x 5
  have e6 := band_sar_masks x 6
  have e7 := band_sar_masks x 7
  norm_num at e0 e1 e2 e3 e4 e5 e6 e7
  unfold bitCountSumMasks
  simp only [bitCountMasks_eq]
  rw [h0, e0, e1, e2, e3, e4, e5, e6, e7]
  have r0 := bitAt_range x 0
  have r1 := bitAt_range x 1
  have r2 := bitAt_range x 2
  have r3 := bitAt_range x 3
  have r4 := bitAt_range x 4
  have r5 := bitAt_range x 5
  have r6 := bitAt_range x 6
  have r7 := bitAt_range x 7
  have r8 := bitAt_range x 8
  have r9 := bitAt_range x 9
  have r10 := bitAt_range x 10
  have r11 := bitAt_range x 11
  have r12 := bitAt_range x 12
  have r13 := bitAt_range x 13
  have r14 := bitAt_range x 14
  have r15 := bitAt_range x 15
  have r16 := bitAt_range x 16
  have r17 := bitAt_range x 17
  have r18 := bitAt_range x 18
  have r19 := bitAt_range x 19
  have r20 := bitAt_range x 20
  have r21 := bitAt_range x 21
  have r22 := bitAt_range x 22
  have r23 := bitAt_range x 23
  have r24 := bitAt_range x 24
  have r25 := bitAt_range x 25
  have r26 := bitAt_range x 26
  have r27 := bitAt_range x 27
  have r28 := bitAt_range x 28
  have r29 := bitAt_range x 29
  have r30 := bitAt_range x 30
  have r31 := bitAt_range x 31
  rw [add32_chain8 _ _ _ _ _ _ _ _ (by omega) (by omega) (by omega) (by omega)
    (by omega) (by omega) (by omega) (by omega)]
  ring

/-- Folding the four lanes: when every lane count is at most 8, the fold of `bitCount`
returns their sum. -/
theorem bitCount_fold (c0 c1 c2 c3 : Int) (h0 : 0 ≤ c0 ∧ c0 ≤ 8) (h1 : 0 ≤ c1 ∧ c1 ≤ 8)
    (h2 : 0 ≤ c2 ∧ c2 ≤ 8) (h3 : 0 ≤ c3 ∧ c3 ≤ 8) (S : Int)
    (hS : S = c0 + 256 * c1 + 65536 * c2 + 16777216 * c3) :
    add32 (add32 (add32 (band S 255) (band (sar32 S 8) 255)) (band (sar32 S 16) 255))
      (band (sar32 S 24) 255) = c0 + c1 + c2 + c3 := by
  rw [band_255, band_255, band_255, band_255, sar32_lit S 8 8 rfl, sar32_lit S 16 16 rfl,
    sar32_lit S 24 24 rfl]
  norm_num
  have e0 : S % 256 = c0 := by omega
  have e1 : S / 256 % 256 = c1 := by omega
  have e2 : S / 65536 % 256 = c2 := by omega
  have e3 : S / 16777216 % 256 = c3 := by omega
  rw [e0, e1, e2, e3]
  unfold add32 wrap32
  omega

/-- The value of `bitCount` as the sum of the 32 bits of the pattern. -/
theorem bitCount_eq_sum (x : Int) :
    bitCount x = ∑ i in Finset.range 32, bitAt x i := by
  have r0 := bitAt_range x 0
  have r1 := bitAt_range x 1
  have r2 := bitAt_range x 2
  have r3 := bitAt_range x 3
  have r4 := bitAt_range x 4
  have r5 := bitAt_range x 5
  have r6 := bitAt_range x 6
  have r7 := bitAt_range x 7
  have r8 := bitAt_range x 8
  have r9 := bitAt_range x 9
  have r10 := bitAt_range x 10
  have r11 := bitAt_range x 11
  have r12 := bitAt_range x 12
  have r13 := bitAt_range x 13
  have r14 := bitAt_range x 14
  have r15 := bitAt_range x 15
  have r16 := bitAt_range x 16
  have r17 := bitAt_range x 17
  have r18 := bitAt_range x 18
  have r19 := bitAt_range x 19
  have r20 := bitAt_range x 20
  have r21 := bitAt_range x 21
  have r22 := bitAt_range x 22
  have r23 := bitAt_range x 23
  have r24 := bitAt_range x 24
  have r25 := bitAt_range x 25
  have r26 := bitAt_range x 26
  have r27 := bitAt_range x 27
  have r28 := bitAt_range x 28
  have r29 := bitAt_range x 29
  have r30 := bitAt_range x 30
  have r31 := bitAt_range x 31
  unfold bitCount
  have hm : (0xFF : Int) = 255 := rfl
  simp only [hm]
  rw [bitCount_fold
    (bitAt x 0 + bitAt x 1 + bitAt x 2 + bitAt x 3 + bitAt x 4 + bitAt x 5 + bitAt x 6 + bitAt x 7)
    (bitAt x 8 + bitAt x 9 + bitAt x 10 + bitAt x 11 + bitAt x 12 + bitAt x 13 + bitAt x 14 + bitAt x 15)
    (bitAt x 16 + bitAt x 17 + bitAt x 18 + bitAt x 19 + bitAt x 20 + bitAt x 21 + bitAt x 22 + bitAt x 23)
    (bitAt x 24 + bitAt x 25 + bitAt x 26 + bitAt x 27 + bitAt x 28 + bitAt x 29 + bitAt x 30 + bitAt x 31)
    (by omega) (by omega) (by omega) (by omega) _ (bitCountSumMasks_eq x)]
  simp only [Finset.sum_range_succ, Finset.sum_range_zero]
  ring

theorem testBit_toU32 (x : Int) (i : Nat) (hi : i < 32) :
    (if (toU32 x).testBit i = true then (1 : Int) else 0) = bitAt x i := by
  have h : (((toU32 x / 2 ^ i % 2 : Nat)) : Int) = bitAt x i := by
    unfold bitAt
    push_cast [toU32_cast]
    interval_cases i <;> norm_num <;> omega
  rw [Nat.testBit_to_div_mod, ← h]
  rcases Nat.mod_two_eq_zero_or_one (toU32 x / 2 ^ i) with h0 | h1
  · simp [h0]
  · simp [h1]

/-- C5: for every 32-bit integer `x`, `bitCount x` is the number of positions `i` in
`0 .. 31` at which bit `i` of the pattern of `x` is 1, and so lies in `0 .. 32`
(negative `x` included). -/
theorem bitCount_correct (x : Int) :
    bitCount x = (((Finset.range 32).filter (fun i => (toU32 x).testBit i = true)).card : Int) ∧
      0 ≤ bitCount x ∧ bitCount x ≤ 32 := by
  have hsum : bitCount x =
      (((Finset.range 32).filter (fun i => (toU32 x).testBit i = true)).card : Int) := by
    rw [bitCount_eq_sum, Finset.card_filter]
    push_cast
    exact (Finset.sum_congr rfl
      (fun i hi => testBit_toU32 x i (Finset.mem_range.mp hi))).symm
  refine ⟨hsum, ?_, ?_⟩
  · rw [hsum]; exact Int.ofNat_nonneg _
  · rw [hsum]
    have h := Finset.card_filter_le (Finset.range 32) (fun i => (toU32 x).testBit i = true)
    rw [Finset.card_range] at h
    exact_mod_cast h

/-! ## ilog2 -/

/-- Masking with `b` ones that start at bit `a` reads the `b`-bit field at position `a`. -/
theorem nat_and_field (a b p : Nat) :
    p &&& (2 ^ a * (2 ^ b - 1)) = 2 ^ a * (p / 2 ^ a % 2 ^ b) := by
  have hpos : 0 < 2 ^ a := Nat.two_pow_pos a
  rw [nat_and_split a p (2 ^ a * (2 ^ b - 1)), Nat.mul_mod_right,
    Nat.mul_div_cancel_left _ hpos, Nat.and_zero, Nat.and_pow_two_sub_one_eq_mod, Nat.zero_add]

theorem band_eq_zero_iff (y m : Int) : band y m = 0 ↔ toU32 y &&& toU32 m = 0 := by
  have hlt : toU32 y &&& toU32 m < 4294967296 :=
    lt_of_le_of_lt Nat.and_le_left (toU32_lt y)
  unfold band ofU32 wrap32
  omega

/-- A field of the pattern of `y` that lies inside the word, read on the signed value. -/
theorem band_field_eq_zero_iff (y m : Int) (a b : Nat) (hab : a + b ≤ 32)
    (hm : toU32 m = 2 ^ a * (2 ^ b - 1)) :
    band y m = 0 ↔ y / 2 ^ a % 2 ^ b = 0 := by
  rw [band_eq_zero_iff, hm, nat_and_field]
  have hpos : 0 < 2 ^ a := Nat.two_pow_pos a
  have h1 : 2 ^ a * (toU32 y / 2 ^ a % 2 ^ b) = 0 ↔ toU32 y / 2 ^ a % 2 ^ b = 0 := by
    constructor
    · intro h
      rcases Nat.mul_eq_zero.mp h with h | h
      · omega
      · exact h
    · intro h; rw [h]; simp
  rw [h1]
  have h2 : (((toU32 y / 2 ^ a % 2 ^ b : Nat)) : Int) = y / 2 ^ a % 2 ^ b := by
    push_cast [toU32_cast]
    have hsplit : (4294967296 : Int) = 2 ^ a * (2 ^ b * 2 ^ (32 - (a + b))) := by
      rw [← pow_add, ← pow_add]
      have : a + (b + (32 - (a + b))) = 32 := by omega
      rw [this]; norm_num
    have hpa : (0 : Int) < 2 ^ a := by positivity
    have hdm := Int.emod_add_ediv y 4294967296
    have e1 : y % 4294967296 = y + 2 ^ a * (2 ^ b * 2 ^ (32 - (a + b)) * (-(y / 4294967296))) := by
      rw [hsplit] at hdm ⊢
      linarith
    rw [e1, Int.add_mul_ediv_left _ _ (ne_of_gt hpa), mul_assoc, Int.add_mul_emod_self_left]
  rw [← h2]
  exact_mod_cast Iff.rfl

theorem ilog2_count1 (y : Int) :
    shl32 (lnot32 (lnot32 (band y (-65536)))) 4 =
      ((if y / 65536 % 65536 = 0 then 0 else 16 : Nat) : Int) := by
  have h := band_field_eq_zero_iff y (-65536) 16 16 (by norm_num) (by decide)
  norm_num at h
  unfold lnot32
  by_cases hc : y / 65536 % 65536 = 0
  · have hb := h.mpr (by omega)
    simp only [hb, hc, if_true]
    decide
  · have hb : ¬ band y (-65536) = 0 := fun hb => hc (by have := h.mp hb; omega)
    simp only [hb, hc, if_false]
    decide

theorem ilog2_count2 (y : Int) :
    shl32 (lnot32 (lnot32 (band y (65280)))) 3 =
      ((if y / 256 % 256 = 0 then 0 else 8 : Nat) : Int) := by
  have h := band_field_eq_zero_iff y (65280) 8 8 (by norm_num) (by decide)
  norm_num at h
  unfold lnot32
  by_cases hc : y / 256 % 256 = 0
  · have hb := h.mpr (by omega)
    simp only [hb, hc, if_true]
    decide
  · have hb : ¬ band y (65280) = 0 := fun hb => hc (by have := h.mp hb; omega)
    simp only [hb, hc, if_false]
    decide

theorem ilog2_count3 (y : Int) :
    shl32 (lnot32 (lnot32 (band y (240)))) 2 =
      ((if y / 16 % 16 = 0 then 0 else 4 : Nat) : Int) := by
  have h := band_field_eq_zero_iff y (240) 4 4 (by norm_num) (by decide)
  norm_num at h
  unfold lnot32
  by_cases hc : y / 16 % 16 = 0
  · have hb := h.mpr (by omega)
    simp only [hb, hc, if_true]
    decide
  · have hb : ¬ band y (240) = 0 := fun hb => hc (by have := h.mp hb; omega)
    simp only [hb, hc, if_false]
    decide

theorem ilog2_count4 (y : Int) :
    shl32 (lnot32 (lnot32 (band y (12)))) 1 =
      ((if y / 4 % 4 = 0 then 0 else 2 : Nat) : Int) := by
  have h := band_field_eq_zero_iff y (12) 2 2 (by norm_num) (by decide)
  norm_num at h
  unfold lnot32
  by_cases hc : y / 4 % 4 = 0
  · have hb := h.mpr (by omega)
    simp only [hb, hc, if_true]
    decide
  · have hb : ¬ band y (12) = 0 := fun hb => hc (by have := h.mp hb; omega)
    simp only [hb, hc, if_false]
    decide

theorem ilog2_count5 (y : Int) :
    lnot32 (lnot32 (band y 2)) = ((if y / 2 % 2 = 0 then 0 else 1 : Nat) : Int) := by
  have h := band_field_eq_zero_iff y 2 1 1 (by norm_num) (by decide)
  norm_num at h
  unfold lnot32
  by_cases hc : y / 2 % 2 = 0
  · have hb := h.mpr (by omega)
    simp only [hb, hc, if_true]
    decide
  · have hb : ¬ band y 2 = 0 := fun hb => hc (by have := h.mp hb; omega)
    simp only [hb, hc, if_false]
    decide

theorem add32_chain5 (c1 c2 c3 c4 c5 : Nat) (h1 : c1 ≤ 16) (h2 : c2 ≤ 8) (h3 : c3 ≤ 4)
    (h4 : c4 ≤ 2) (h5 : c5 ≤ 1) :
    add32 (add32 (add32 (add32 (c1 : Int) c2) c3) c4) c5 = ((c1 + c2 + c3 + c4 + c5 : Nat) : Int) := by
  have a1 : add32 (c1 : Int) c2 = c1 + c2 := wrap32_eq_self _ (by omega) (by omega)
  have a2 : add32 ((c1 : Int) + c2) c3 = c1 + c2 + c3 := wrap32_eq_self _ (by omega) (by omega)
  have a3 : add32 ((c1 : Int) + c2 + c3) c4 = c1 + c2 + c3 + c4 :=
    wrap32_eq_self _ (by omega) (by omega)
  have a4 : add32 ((c1 : Int) + c2 + c3 + c4) c5 = c1 + c2 + c3 + c4 + c5 :=
    wrap32_eq_self _ (by omega) (by omega)
  rw [a1, a2, a3, a4]
  push_cast
  rfl

theorem ite_le (c : Prop) [Decidable c] (w : Nat) : (if c then 0 else w) ≤ w := by
  split <;> omega

/-- The source `ilog2` computes its arithmetic reading, on every input. -/
theorem ilog2_eq (x : Int) : ilog2 x = (ilog2N x : Int) := by
  have m1 : add32 (shl32 0xFF 24) (shl32 0xFF 16) = -65536 := by decide
  have m2 : shl32 0xFF 8 = 65280 := by decide
  have m3 : (0xF0 : Int) = 240 := rfl
  have m4 : (0x0C : Int) = 12 := rfl
  have m5 : (0x02 : Int) = 2 := rfl
  unfold ilog2 ilog2N
  simp only [m1, m2, m3, m4, m5]
  rw [ilog2_count1, sar32_eq, ilog2_count2, sar32_eq, ilog2_count3, sar32_eq, ilog2_count4,
    sar32_eq, ilog2_count5]
  exact add32_chain5 _ _ _ _ _ (ite_le _ _) (ite_le _ _) (ite_le _ _) (ite_le _ _) (ite_le _ _)

/-- On positive words the arithmetic reading brackets `x` between consecutive powers of 2. -/
theorem ilog2N_bracket (x : Int) (h1 : 0 < x) (h2 : x ≤ 2147483647) :
    ilog2N x ≤ 30 ∧ 2 ^ ilog2N x ≤ x ∧ x < 2 ^ (ilog2N x + 1) := by
  unfold ilog2N
  simp only []
  split_ifs <;> norm_num <;> omega

/-- C2: for every 32-bit signed integer `x > 0`, `ilog2 x` is the unique `r` with
`0 ≤ r ≤ 30` and `2^r ≤ x < 2^(r+1)`, that is, the floor of the base-2 logarithm of `x`. -/
theorem ilog2_correct (x : Int) (h1 : 0 < x) (h2 : x ≤ 2147483647) :
    (0 ≤ ilog2 x ∧ ilog2 x ≤ 30) ∧
      (2 ^ (ilog2 x).toNat ≤ x ∧ x < 2 ^ ((ilog2 x).toNat + 1)) ∧
      (∀ r : Nat, 2 ^ r ≤ x → x < 2 ^ (r + 1) → (r : Int) = ilog2 x) ∧
      ilog2 x = (Nat.log 2 x.toNat : Int) := by
  obtain ⟨hk, hlo, hhi⟩ := ilog2N_bracket x h1 h2
  rw [ilog2_eq, Int.toNat_ofNat]
  have huniq : ∀ r : Nat, 2 ^ r ≤ x → x < 2 ^ (r + 1) → r = ilog2N x := by
    intro r hr1 hr2
    rcases Nat.lt_trichotomy r (ilog2N x) with hlt | heq | hgt
    · have : (2 : Int) ^ (r + 1) ≤ 2 ^ ilog2N x := pow_le_pow_right₀ (by norm_num) hlt
      omega
    · exact heq
    · have : (2 : Int) ^ (ilog2N x + 1) ≤ 2 ^ r := pow_le_pow_right₀ (by norm_num) hgt
      omega
  refine ⟨⟨Int.ofNat_nonneg _, by exact_mod_cast hk⟩, ⟨hlo, hhi⟩, ?_, ?_⟩
  · intro r hr1 hr2
    exact_mod_cast huniq r hr1 hr2
  · have hx : x = ((x.toNat : Nat) : Int) := by omega
    have hlog : Nat.log 2 x.toNat = ilog2N x := by
      rw [Nat.log_eq_iff (Or.inr ⟨by norm_num, by omega⟩)]
      have hlo2 : ((2 ^ ilog2N x : Nat) : Int) ≤ (x.toNat : Int) := by push_cast; omega
      have hhi2 : ((x.toNat : Nat) : Int) < ((2 ^ (ilog2N x + 1) : Nat) : Int) := by
        push_cast; omega
      exact ⟨by exact_mod_cast hlo2, by exact_mod_cast hhi2⟩
    rw [hlog]

theorem ilog2_correct_witness :
    (0 ≤ ilog2 2147483647 ∧ ilog2 2147483647 ≤ 30) ∧
      (2 ^ (ilog2 2147483647).toNat ≤ (2147483647 : Int) ∧
        (2147483647 : Int) < 2 ^ ((ilog2 2147483647).toNat + 1)) ∧
      (∀ r : Nat, 2 ^ r ≤ (2147483647 : Int) → (2147483647 : Int) < 2 ^ (r + 1) →
        (r : Int) = ilog2 2147483647) ∧
      ilog2 2147483647 = (Nat.log 2 (2147483647 : Int).toNat : Int) :=
  ilog2_correct 2147483647 (by decide) (by decide)

/-! ## bitAnd -/

theorem toU32_ofU32 (p : Nat) (h : p < 4294967296) : toU32 (ofU32 p) = p := by
  unfold toU32 ofU32 wrap32; omega

theorem toU32_bnot (x : Int) : toU32 (bnot x) = 4294967295 - toU32 x := by
  unfold bnot
  exact toU32_ofU32 _ (by omega)

theorem toU32_bor (a b : Int) : toU32 (bor a b) = toU32 a ||| toU32 b := by
  unfold bor
  apply toU32_ofU32
  have h := @Nat.or_lt_two_pow (toU32 a) (toU32 b) 32 (by simpa using toU32_lt a)
    (by simpa using toU32_lt b)
  simpa using h

theorem toU32_band (a b : Int) : toU32 (band a b) = toU32 a &&& toU32 b := by
  unfold band
  exact toU32_ofU32 _ (lt_of_le_of_lt Nat.and_le_left (toU32_lt a))

/-- De Morgan on 32-bit patterns: complementing the or of the complements is the and. -/
theorem nat_demorgan (p q : Nat) (hp : p < 4294967296) (hq : q < 4294967296) :
    4294967295 - ((4294967295 - p) ||| (4294967295 - q)) = p &&& q := by
  have hp2 : p < 2 ^ 32 := by simpa using hp
  have hq2 : q < 2 ^ 32 := by simpa using hq
  have ep : 4294967295 - p = 2 ^ 32 - (p + 1) := by norm_num; omega
  have eq : 4294967295 - q = 2 ^ 32 - (q + 1) := by norm_num; omega
  have hr : (2 ^ 32 - (p + 1)) ||| (2 ^ 32 - (q + 1)) < 2 ^ 32 :=
    Nat.or_lt_two_pow (by omega) (by omega)
  have er : 4294967295 - ((2 ^ 32 - (p + 1)) ||| (2 ^ 32 - (q + 1))) =
      2 ^ 32 - (((2 ^ 32 - (p + 1)) ||| (2 ^ 32 - (q + 1))) + 1) := by
    norm_num; omega
  rw [ep, eq, er]
  apply Nat.eq_of_testBit_eq
  intro i
  rw [Nat.testBit_two_pow_sub_succ hr, Nat.testBit_or, Nat.testBit_two_pow_sub_succ hp2,
    Nat.testBit_two_pow_sub_succ hq2, Nat.testBit_and]
  by_cases hi : i < 32
  · simp only [hi, decide_True, Bool.true_and]
    cases p.testBit i <;> cases q.testBit i <;> rfl
  · have hpi : p.testBit i = false :=
      Nat.testBit_lt_two_pow (lt_of_lt_of_le hp2 (Nat.pow_le_pow_right (by norm_num) (by omega)))
    simp [hi, hpi]

/-- C11: for every pair of 32-bit integers `x`, `y`, `bitAnd x y` is the bitwise and
`x & y`: the same word, whose pattern is the and of the two patterns. -/
theorem bitAnd_correct (x y : Int) :
    bitAnd x y = band x y ∧ toU32 (bitAnd x y) = toU32 x &&& toU32 y := by
  have h : bitAnd x y = band x y := by
    have e : bnot (bor (bnot x) (bnot y)) =
        ofU32 (4294967295 - toU32 (bor (bnot x) (bnot y))) := rfl
    unfold bitAnd
    rw [e, toU32_bor, toU32_bnot, toU32_bnot, nat_demorgan _ _ (toU32_lt x) (toU32_lt y)]
    rfl
  exact ⟨h, by rw [h, toU32_band]⟩

/-! ## tmin -/

/-- C12: `tmin` is `-2147483648`, the pattern with only bit 31 set, and it is less than or
equal to every 32-bit signed integer (every value a 32-bit pattern can denote). -/
theorem tmin_correct :
    tmin = -2147483648 ∧
      (∀ i : Nat, (toU32 tmin).testBit i = decide (i = 31)) ∧
      (∀ p : Nat, tmin ≤ ofU32 p) ∧
      (∀ x : Int, -2147483648 ≤ x ∧ x ≤ 2147483647 → tmin ≤ x) := by
  have h : tmin = -2147483648 := by decide
  have hp : toU32 tmin = 2 ^ 31 := by decide
  refine ⟨h, ?_, ?_, ?_⟩
  · intro i
    rw [hp, Nat.testBit_two_pow]
    simp only [eq_comm]
  · intro p
    rw [h]
    exact (wrap32_range _).1
  · intro x hx
    rw [h]
    exact hx.1

theorem tmin_correct_witness :
    tmin = -2147483648 ∧ tmin ≤ ofU32 2147483648 ∧ tmin ≤ 2147483647 :=
  ⟨tmin_correct.1, tmin_correct.2.2.1 2147483648,
    tmin_correct.2.2.2 2147483647 (by decide)⟩

/-! ## negate twice -/

/-- C13: for every 32-bit signed integer `x` except the minimum integer,
`negate (negate x) = x`. -/
theorem negate_negate (x : Int) (h1 : -2147483648 ≤ x) (h2 : x ≤ 2147483647)
    (hne : x ≠ -2147483648) : negate (negate x) = x := by
  have e : negate x = -x := by
    unfold negate add32
    rw [bnot_eq x h1 h2]
    unfold wrap32
    omega
  rw [e]
  unfold negate add32
  rw [bnot_eq (-x) (by omega) (by omega)]
  unfold wrap32
  omega

theorem negate_negate_witness : negate (negate 2147483647) = 2147483647 :=
  negate_negate 2147483647 (by decide) (by decide) (by decide)

/-! ## The case flags of isLessOrEqual -/

/-- C14, as stated, fails: for `x = y = 0` both `equal` and `sameSign` are nonzero, so more
than one of the three flags is set. -/
theorem leFlags_not_disjoint :
    ¬ nonzeroCount (leEqual 0 0) (leSameSign 0 0) (leDiffSign 0 0) ≤ 1 := by
  decide

/-- C14, amended: for 32-bit `x ≠ y` at most one of `equal`, `sameSign`, `diffSign` is
nonzero; for `x = y` both `equal` and `sameSign` are 1 and `diffSign` is 0. -/
theorem leFlags_overlap (x y : Int)
    (hx1 : -2147483648 ≤ x) (hx2 : x ≤ 2147483647)
    (hy1 : -2147483648 ≤ y) (hy2 : y ≤ 2147483647) :
    (x ≠ y → nonzeroCount (leEqual x y) (leSameSign x y) (leDiffSign x y) ≤ 1) ∧
      (x = y → leEqual x y = 1 ∧ leSameSign x y = 1 ∧ leDiffSign x y = 0) := by
  have hxy : add32 (bnot y) x = wrap32 (x - y - 1) := by
    rw [bnot_eq y hy1 hy2]; unfold add32; congr 1; ring
  have hw := wrap32_range (x - y - 1)
  have hrel : sar32 (add32 (bnot y) x) 31 = if wrap32 (x - y - 1) < 0 then -1 else 0 := by
    rw [hxy]; exact sar32_31 _ hw.1 hw.2
  have heq : lnot32 (bxor x y) = if x = y then 1 else 0 :=
    lnot32_bxor x y hx1 hx2 hy1 hy2
  unfold leEqual leSameSign leDiffSign
  simp only [hrel, heq, sar32_31 x hx1 hx2, sar32_31 y hy1 hy2]
  by_cases hxn : x < 0 <;> by_cases hyn : y < 0 <;> by_cases he : x = y <;>
    by_cases hr : wrap32 (x - y - 1) < 0 <;>
    simp only [hxn, hyn, hr, if_true, if_false] <;>
    simp only [he, if_true, if_false, ne_eq, not_true_eq_false, not_false_eq_true,
      false_implies, true_implies, and_true, true_and] <;>
    first
      | decide
      | (exfalso; unfold wrap32 at hr; omega)

theorem leFlags_overlap_witness :
    nonzeroCount (leEqual 4 5) (leSameSign 4 5) (leDiffSign 4 5) ≤ 1 ∧
      (leEqual 7 7 = 1 ∧ leSameSign 7 7 = 1 ∧ leDiffSign 7 7 = 0) :=
  ⟨(leFlags_overlap 4 5 (by decide) (by decide) (by decide) (by decide)).1 (by decide),
    (leFlags_overlap 7 7 (by decide) (by decide) (by decide) (by decide)).2 rfl⟩

/-! ## The two sign words of bang -/

/-- Away from the minimum integer the two sign words of `bang` behave as the comment in the
source says: for every nonzero 32-bit `x` other than the minimum integer, exactly one of
`sign = x >> 31` and `oppositeSign = (~x + 1) >> 31` is all-ones and the other is zero.
No addition overflows on this domain. -/
theorem bangSigns_exactly_one (x : Int) (h1 : -2147483647 ≤ x) (h2 : x ≤ 2147483647)
    (hx : x ≠ 0) : exactlyOneAllOnes (bangSign x) (bangOppositeSign x) := by
  have hneg : add32 (bnot x) 1 = -x := by
    rw [bnot_eq x (by omega) h2]; unfold add32 wrap32; omega
  unfold exactlyOneAllOnes bangSign bangOppositeSign
  rw [hneg, sar32_31 x (by omega) h2, sar32_31 (-x) (by omega) (by omega)]
  by_cases hxn : x < 0
  · have hr : ¬ (-x < 0) := by omega
    simp [hxn, hr]
  · have hr : -x < 0 := by omega
    simp [hxn, hr]

/-- Reading the four byte lanes of a word built from four small lane values. -/
theorem lanes_of_sum (c0 c1 c2 c3 S : Int) (h0 : 0 ≤ c0 ∧ c0 ≤ 8) (h1 : 0 ≤ c1 ∧ c1 ≤ 8)
    (h2 : 0 ≤ c2 ∧ c2 ≤ 8) (h3 : 0 ≤ c3 ∧ c3 ≤ 8)
    (hS : S = c0 + 256 * c1 + 65536 * c2 + 16777216 * c3) :
    S % 4294967296 / 1 % 256 = c0 ∧ S % 4294967296 / 256 % 256 = c1 ∧
      S % 4294967296 / 65536 % 256 = c2 ∧ S % 4294967296 / 16777216 % 256 = c3 := by
  have e : S % 4294967296 = S := by omega
  rw [e]
  refine ⟨?_, ?_, ?_, ?_⟩ <;> omega

/-- The number of set bits among eight consecutive positions of the pattern of `x`. -/
theorem card_byte_bits (x : Int) (i : Nat) (hi : i < 4) :
    ((((Finset.range 8).filter (fun j => (toU32 x).testBit (8 * i + j) = true)).card : Nat) :
      Int) = ∑ j in Finset.range 8, bitAt x (8 * i + j) := by
  rw [Finset.card_filter]
  push_cast
  exact Finset.sum_congr rfl
    (fun j hj => testBit_toU32 x (8 * i + j) (by have := Finset.mem_range.mp hj; omega))

/-- C16: in `bitCount` the word `sumMasks` holds four independent per-byte counts: for
every 32-bit `x` and lane `i` in `0 .. 3`, bits `8i .. 8i+7` of `sumMasks`, read as an
unsigned number, are the number of 1-bits in byte `i` of `x`, hence at most 8. -/
theorem bitCountSumMasks_lanes (x : Int) (i : Nat) (hi : i < 4) :
    toU32 (bitCountSumMasks x) / 256 ^ i % 256 =
        ((Finset.range 8).filter (fun j => (toU32 x).testBit (8 * i + j) = true)).card ∧
      toU32 (bitCountSumMasks x) / 256 ^ i % 256 ≤ 8 := by
  have r0 := bitAt_range x 0
  have r1 := bitAt_range x 1
  have r2 := bitAt_range x 2
  have r3 := bitAt_range x 3
  have r4 := bitAt_range x 4
  have r5 := bitAt_range x 5
  have r6 := bitAt_range x 6
  have r7 := bitAt_range x 7
  have r8 := bitAt_range x 8
  have r9 := bitAt_range x 9
  have r10 := bitAt_range x 10
  have r11 := bitAt_range x 11
  have r12 := bitAt_range x 12
  have r13 := bitAt_range x 13
  have r14 := bitAt_range x 14
  have r15 := bitAt_range x 15
  have r16 := bitAt_range x 16
  have r17 := bitAt_range x 17
  have r18 := bitAt_range x 18
  have r19 := bitAt_range x 19
  have r20 := bitAt_range x 20
  have r21 := bitAt_range x 21
  have r22 := bitAt_range x 22
  have r23 := bitAt_range x 23
  have r24 := bitAt_range x 24
  have r25 := bitAt_range x 25
  have r26 := bitAt_range x 26
  have r27 := bitAt_range x 27
  have r28 := bitAt_range x 28
  have r29 := bitAt_range x 29
  have r30 := bitAt_range x 30
  have r31 := bitAt_range x 31
  have hl := lanes_of_sum
    (bitAt x 0 + bitAt x 1 + bitAt x 2 + bitAt x 3 + bitAt x 4 + bitAt x 5 + bitAt x 6 + bitAt x 7)
    (bitAt x 8 + bitAt x 9 + bitAt x 10 + bitAt x 11 + bitAt x 12 + bitAt x 13 + bitAt x 14 + bitAt x 15)
    (bitAt x 16 + bitAt x 17 + bitAt x 18 + bitAt x 19 + bitAt x 20 + bitAt x 21 + bitAt x 22 + bitAt x 23)
    (bitAt x 24 + bitAt x 25 + bitAt x 26 + bitAt x 27 + bitAt x 28 + bitAt x 29 + bitAt x 30 + bitAt x 31)
    (bitCountSumMasks x) (by omega) (by omega) (by omega) (by omega) (bitCountSumMasks_eq x)
  have hlane : (((toU32 (bitCountSumMasks x) / 256 ^ i % 256 : Nat)) : Int) =
      ∑ j in Finset.range 8, bitAt x (8 * i + j) := by
    push_cast [toU32_cast]
    simp only [Finset.sum_range_succ, Finset.sum_range_zero]
    interval_cases i
    · norm_num; rw [← hl.1]; norm_num
    · norm_num; rw [hl.2.1]
    · norm_num; rw [hl.2.2.1]
    · norm_num; rw [hl.2.2.2]
  have heq : toU32 (bitCountSumMasks x) / 256 ^ i % 256 =
      ((Finset.range 8).filter (fun j => (toU32 x).testBit (8 * i + j) = true)).card := by
    exact_mod_cast hlane.trans (card_byte_bits x i hi).symm
  refine ⟨heq, ?_⟩
  rw [heq]
  have h := Finset.card_filter_le (Finset.range 8)
    (fun j => (toU32 x).testBit (8 * i + j) = true)
  rw [Finset.card_range] at h
  exact h

theorem bitCountSumMasks_lanes_witness :
    toU32 (bitCountSumMasks (-1)) / 256 ^ 3 % 256 =
        ((Finset.range 8).filter (fun j => (toU32 (-1)).testBit (8 * 3 + j) = true)).card ∧
      toU32 (bitCountSumMasks (-1)) / 256 ^ 3 % 256 ≤ 8 :=
  bitCountSumMasks_lanes (-1) 3 (by decide)

/-! ## The mask of logicalShift -/

/-- C17: for `0 ≤ n ≤ 31` the mask `~((1 << 31) >> n << 1)` of `logicalShift` has its top
`n` bits clear and its low `32 - n` bits set: its unsigned value is `2^(32-n) - 1`
(all ones for `n = 0`, the value 1 for `n = 31`). -/
theorem logicalShiftMask_correct (n : Int) (hn1 : 0 ≤ n) (hn2 : n ≤ 31) :
    toU32 (logicalShiftMask n) = 2 ^ (32 - n.toNat) - 1 ∧
      (∀ i : Nat, (toU32 (logicalShiftMask n)).testBit i = decide (i < 32 - n.toNat)) ∧
      toU32 (logicalShiftMask 0) = 4294967295 ∧ toU32 (logicalShiftMask 31) = 1 := by
  have hv : toU32 (logicalShiftMask n) = 2 ^ (32 - n.toNat) - 1 := by
    obtain ⟨k, rfl⟩ := Int.eq_ofNat_of_zero_le hn1
    rw [Int.toNat_ofNat]
    have hk : k ≤ 31 := by omega
    interval_cases k <;> decide
  refine ⟨hv, ?_, by decide, by decide⟩
  intro i
  rw [hv, Nat.testBit_two_pow_sub_one]

theorem logicalShiftMask_correct_witness :
    toU32 (logicalShiftMask 4) = 2 ^ (32 - (4 : Int).toNat) - 1 ∧
      (∀ i : Nat, (toU32 (logicalShiftMask 4)).testBit i = decide (i < 32 - (4 : Int).toNat)) ∧
      toU32 (logicalShiftMask 0) = 4294967295 ∧ toU32 (logicalShiftMask 31) = 1 :=
  logicalShiftMask_correct 4 (by decide) (by decide)

/-! ## ilog2 outside its precondition -/

theorem ilog2N_le (x : Int) : ilog2N x ≤ 31 := by
  unfold ilog2N
  simp only []
  split_ifs <;> omega

theorem ilog2N_neg (x : Int) (h1 : -2147483648 ≤ x) (h2 : x < 0) : ilog2N x = 31 := by
  unfold ilog2N
  simp only []
  split_ifs <;> norm_num <;> omega

/-- C18: outside its precondition `ilog2` still returns the index of the highest set bit of
the pattern: `ilog2 x = 31` for every negative 32-bit `x`, `ilog2 0 = 0`, and for every
32-bit `x` the result lies in `0 .. 31`. -/
theorem ilog2_outside (x : Int) (h1 : -2147483648 ≤ x) :
    (x < 0 → ilog2 x = 31) ∧ ilog2 0 = 0 ∧ (0 ≤ ilog2 x ∧ ilog2 x ≤ 31) := by
  refine ⟨fun hneg => ?_, by decide, ?_, ?_⟩
  · rw [ilog2_eq, ilog2N_neg x h1 hneg]; rfl
  · rw [ilog2_eq]; exact Int.ofNat_nonneg _
  · rw [ilog2_eq]; exact_mod_cast ilog2N_le x

theorem ilog2_outside_witness :
    ilog2 (-2147483648) = 31 ∧ ilog2 0 = 0 ∧
      (0 ≤ ilog2 (-2147483648) ∧ ilog2 (-2147483648) ≤ 31) :=
  ⟨(ilog2_outside (-2147483648) (by decide)).1 (by decide),
    (ilog2_outside (-2147483648) (by decide)).2⟩

/-! ## Reassembling a word from its bytes -/

theorem bor_range (a b : Int) : -2147483648 ≤ bor a b ∧ bor a b ≤ 2147483647 := by
  unfold bor ofU32
  exact wrap32_range _

/-- Byte `k` of `x` as `getByte` returns it, written on the unsigned pattern. -/
theorem getByte_pattern (x : Int) :
    getByte x 0 = ((toU32 x % 256 : Nat) : Int) ∧
      getByte x 1 = ((toU32 x / 256 % 256 : Nat) : Int) ∧
      getByte x 2 = ((toU32 x / 65536 % 256 : Nat) : Int) ∧
      getByte x 3 = ((toU32 x / 16777216 % 256 : Nat) : Int) := by
  have hm : (0xff : Int) = 255 := rfl
  have s0 : shl32 0 3 = 0 := by decide
  have s1 : shl32 1 3 = 8 := by decide
  have s2 : shl32 2 3 = 16 := by decide
  have s3 : shl32 3 3 = 24 := by decide
  unfold getByte
  rw [hm, s0, s1, s2, s3, band_255, band_255, band_255, band_255, sar32_lit x 0 0 rfl,
    sar32_lit x 8 8 rfl, sar32_lit x 16 16 rfl, sar32_lit x 24 24 rfl]
  have hc := toU32_cast x
  refine ⟨?_, ?_, ?_, ?_⟩ <;> push_cast <;> omega

/-- Shifting a byte value left by at most 24 keeps all its bits. -/
theorem toU32_shl32_byte (b : Nat) (hb : b < 256) :
    toU32 (shl32 (b : Int) 8) = 2 ^ 8 * b ∧ toU32 (shl32 (b : Int) 16) = 2 ^ 16 * b ∧
      toU32 (shl32 (b : Int) 24) = 2 ^ 24 * b := by
  have t8 : (8 : Int).toNat = 8 := rfl
  have t16 : (16 : Int).toNat = 16 := rfl
  have t24 : (24 : Int).toNat = 24 := rfl
  unfold shl32 toU32 wrap32
  rw [t8, t16, t24]
  norm_num
  refine ⟨?_, ?_, ?_⟩ <;> omega

/-- The or of the four bytes of a 32-bit pattern, each in its place, is the pattern. -/
theorem nat_bytes_or (p : Nat) (hp : p < 4294967296) :
    ((2 ^ 24 * (p / 16777216 % 256) ||| 2 ^ 16 * (p / 65536 % 256)) |||
      2 ^ 8 * (p / 256 % 256)) ||| p % 256 = p := by
  have e1 : 2 ^ 24 * (p / 16777216 % 256) ||| 2 ^ 16 * (p / 65536 % 256) =
      2 ^ 16 * (p / 65536) := by
    rw [← Nat.mul_add_lt_is_or (by omega) _]
    omega
  have e2 : 2 ^ 16 * (p / 65536) ||| 2 ^ 8 * (p / 256 % 256) = 2 ^ 8 * (p / 256) := by
    have h : 2 ^ 16 * (p / 65536) = 2 ^ 16 * (p / 65536) + 0 := rfl
    have h2 : 2 ^ 8 * (p / 256 % 256) < 2 ^ 16 := by omega
    rw [← Nat.mul_add_lt_is_or h2 _]
    omega
  have e3 : 2 ^ 8 * (p / 256) ||| p % 256 = p := by
    have h2 : p % 256 < 2 ^ 8 := by omega
    rw [← Nat.mul_add_lt_is_or h2 _]
    omega
  rw [e1, e2, e3]

/-- C19: the four bytes returned by `getByte` reassemble the word: for every 32-bit `x`,
`(getByte(x,3) << 24) | (getByte(x,2) << 16) | (getByte(x,1) << 8) | getByte(x,0) = x`. -/
theorem getByte_reassemble (x : Int) (h1 : -2147483648 ≤ x) (h2 : x ≤ 2147483647) :
    bor (bor (bor (shl32 (getByte x 3) 24) (shl32 (getByte x 2) 16)) (shl32 (getByte x 1) 8))
      (getByte x 0) = x := by
  obtain ⟨g0, g1, g2, g3⟩ := getByte_pattern x
  have hp := toU32_lt x
  have b1 := toU32_shl32_byte (toU32 x / 256 % 256) (by omega)
  have b2 := toU32_shl32_byte (toU32 x / 65536 % 256) (by omega)
  have b3 := toU32_shl32_byte (toU32 x / 16777216 % 256) (by omega)
  have b0 : toU32 ((toU32 x % 256 : Nat) : Int) = toU32 x % 256 := by
    unfold toU32; omega
  refine toU32_inj
    (bor (bor (bor (shl32 (getByte x 3) 24) (shl32 (getByte x 2) 16)) (shl32 (getByte x 1) 8))
      (getByte x 0)) x (bor_range _ _).1 (bor_range _ _).2 h1 h2 ?_
  rw [toU32_bor, toU32_bor, toU32_bor, g0, g1, g2, g3, b0, b1.1, b2.2.1, b3.2.2]
  exact nat_bytes_or (toU32 x) hp

theorem getByte_reassemble_witness :
    bor (bor (bor (shl32 (getByte (-2) 3) 24) (shl32 (getByte (-2) 2) 16))
      (shl32 (getByte (-2) 1) 8)) (getByte (-2) 0) = -2 :=
  getByte_reassemble (-2) (by decide) (by decide)

/-! ## divpwr2 is odd-symmetric -/

theorem negate_eq_neg (t : Int) (h1 : -2147483647 ≤ t) (h2 : t ≤ 2147483647) :
    negate t = -t := by
  unfold negate add32
  rw [bnot_eq t (by omega) h2]
  unfold wrap32
  omega

/-- A truncating quotient by a positive number is no larger in size than the dividend. -/
theorem tdiv_bounds (x P : Int) (hP : 1 ≤ P) (h1 : -2147483647 ≤ x) (h2 : x ≤ 2147483647) :
    -2147483647 ≤ Int.tdiv x P ∧ Int.tdiv x P ≤ 2147483647 := by
  by_cases hx : 0 ≤ x
  · rw [Int.tdiv_eq_ediv hx (by omega)]
    have a := Int.ediv_nonneg hx (by omega : (0 : Int) ≤ P)
    have b := Int.ediv_le_self P hx
    omega
  · have e : Int.tdiv x P = -((-x) / P) := by
      have : x = -(-x) := by ring
      rw [this, Int.neg_tdiv, Int.tdiv_eq_ediv (by omega) (by omega)]
      simp
    have a := Int.ediv_nonneg (by omega : (0 : Int) ≤ -x) (by omega : (0 : Int) ≤ P)
    have b := Int.ediv_le_self P (by omega : (0 : Int) ≤ -x)
    rw [e]
    omega

/-- C20: `divpwr2` is odd-symmetric: for every 32-bit signed integer `x` other than the
minimum integer and every `0 ≤ n ≤ 30`, `divpwr2 (negate x) n = negate (divpwr2 x n)`. -/
theorem divpwr2_negate (x n : Int) (h1 : -2147483648 ≤ x) (h2 : x ≤ 2147483647)
    (hne : x ≠ -2147483648) (hn1 : 0 ≤ n) (hn2 : n ≤ 30) :
    divpwr2 (negate x) n = negate (divpwr2 x n) := by
  have hP := two_pow_toNat_bounds n 30 (by simpa using hn2)
  have hb := tdiv_bounds x (2 ^ n.toNat) hP.1 (by omega) h2
  rw [negate_eq_neg x (by omega) h2, divpwr2_eq_tdiv (-x) n (by omega) (by omega) hn1 hn2,
    divpwr2_eq_tdiv x n h1 h2 hn1 hn2, Int.neg_tdiv, negate_eq_neg _ hb.1 hb.2]

theorem divpwr2_negate_witness :
    divpwr2 (negate (-33)) 4 = negate (divpwr2 (-33) 4) :=
  divpwr2_negate (-33) 4 (by decide) (by decide) (by decide) (by decide) (by decide)

end Bits
